import Mathlib

/-!
Verification development for the DocInsights dynamic code-execution sandbox.

The subject code is `DocInsights/utils/code_executor.py` (the functions
`execute_python_code` and `_clean_code_for_execution`) together with the
artifact-discovery routine `ReportAgent._extract_image_paths` in
`DocInsights/agents/report_agent.py`.

Modelling conventions (shallow embedding):
* Text is `List Char` (abbreviated `Str`); Python `str.strip` and the
  whitespace class of the normalizer regex are modelled over the ASCII
  whitespace characters (space, tab, newline, carriage return, vertical
  tab, form feed), which is what they mean on ASCII input.
* The regular-expression scans are translated operationally: leftmost
  scanning, non-overlapping continuation after a match, ordered
  alternation with backtracking, greedy and lazy repetition exactly as
  Python's `re.findall` resolves them for the concrete patterns in the
  source.  The scans are written with an explicit fuel argument (the
  length of the scanned text, which each step strictly decreases below)
  so that every definition is structurally recursive and executable.
* The filesystem and process state touched by `execute_python_code`
  (working directory, module search path, files on disk, open plot
  figures, the fresh-name supply of `tempfile`) is an explicit `World`
  record.  The submitted Python program itself is an oracle
  (`Semantics`): a function from the normalized code text, the optional
  data path and the world at entry to what the run produced (stdout,
  stderr, an optional raised exception with its traceback text, and the
  world it left behind).  OS primitives that the wrapper itself calls
  (`mkdtemp`, `chdir`, figure saving) are modelled as total, and
  `mkdtemp`'s unique names are modelled by the fresh counter.
-/

abbrev Str := List Char

/-- The backtick character, written by code so that the delimiter of
fenced blocks can be spoken about outside string literals. -/
def bq : Char := Char.ofNat 96

/-- ASCII whitespace, the characters meant by the `\s` class of the
normalizer's pattern and by `str.strip` on ASCII text. -/
def isWsChar (c : Char) : Bool :=
  c == ' ' || c == '\t' || c == '\n' || c == '\r' ||
  c == Char.ofNat 11 || c == Char.ofNat 12

/-- Case-sensitive "does `s` start with `p`". -/
def startsWithL : Str → Str → Bool
  | [], _ => true
  | _ :: _, [] => false
  | a :: p, b :: s => a == b && startsWithL p s

/-- Python `str.strip()`: drop whitespace from both ends. -/
def stripList (s : Str) : Str :=
  ((s.dropWhile isWsChar).reverse.dropWhile isWsChar).reverse

/-- Boolean substring test, used to state containment facts decidably. -/
def containsSub (pat : Str) : Str → Bool
  | [] => startsWithL pat []
  | c :: s => startsWithL pat (c :: s) || containsSub pat s

/-- The fence delimiter of a markdown code block. -/
def fenceL : Str := "```".data

/-- Scan for the first occurrence of the closing fence; on success return
the text before it (the lazy `([\s\S]*?)` capture) and the text after it.
This is the lazy-body step of the pattern in
`_clean_code_for_execution`. -/
def splitAtFence : Str → Option (Str × Str)
  | [] => none
  | c :: u =>
    if startsWithL fenceL (c :: u) then some ([], (c :: u).drop 3)
    else
      match splitAtFence u with
      | some (a, r) => some (c :: a, r)
      | none => none

/-- One attempt of the pattern
` ```(?:python|py)?\s*([\s\S]*?)``` ` anchored at the start of `s`:
the opening fence, then the optional language tag with `python` tried
before `py`, then greedy whitespace, then the lazy body up to the first
closing fence.  Returns the capture and the text after the match. -/
def tagDrop (t : Str) : Str :=
  if startsWithL "python".data t then t.drop 6
  else if startsWithL "py".data t then t.drop 2 else t

/-- See the comment above `tagDrop`: the anchored match attempt, combining
the fence test, the tag, the greedy whitespace and the lazy body. -/
def matchAt (s : Str) : Option (Str × Str) :=
  if startsWithL fenceL s then
    splitAtFence ((tagDrop (s.drop 3)).dropWhile isWsChar)
  else none

/-- `re.findall` for the block pattern: try a match at every position from
the left, continuing after the end of each match.  `fuel` bounds the
number of scan steps; every step strictly shrinks the text, so fuel equal
to the length of the text (as used by `findallBlocks`) is never
exhausted. -/
def findallAux : Nat → Str → List Str
  | 0, _ => []
  | _ + 1, [] => []
  | fuel + 1, c :: s =>
    match matchAt (c :: s) with
    | some (cap, rest) => cap :: findallAux fuel rest
    | none => findallAux fuel s

/-- All captures of the block pattern, in order of occurrence. -/
def findallBlocks (s : Str) : List Str := findallAux s.length s

/-- `_clean_code_for_execution`: if the text contains fenced blocks,
return the stripped body of the first one; otherwise return the text
as it came in.  Total by construction. -/
def cleanCode (code : Str) : Str :=
  match findallBlocks code with
  | [] => code
  | b :: _ => stripList b

example : cleanCode "print(1)".data = "print(1)".data := by decide
example : cleanCode "```python\nprint(1)\n```".data = "print(1)".data := by decide
example : cleanCode "```py\nx\n``` and ```python\ny\n```".data = "x".data := by decide
example : cleanCode "```pytorch\nz```".data = "torch\nz".data := by decide
example : cleanCode "  x  ".data = "  x  ".data := by decide
example : cleanCode "```javascript\nvar a```".data = "javascript\nvar a".data := by decide

/-! ### Basic facts about the text utilities -/

theorem startsWithL_app (p t : Str) : startsWithL p (p ++ t) = true := by
  induction p with
  | nil => rfl
  | cons a p ih => simp [startsWithL, ih]

theorem startsWithL_true_iff (p s : Str) :
    startsWithL p s = true ↔ ∃ t, s = p ++ t := by
  induction p generalizing s with
  | nil => simp [startsWithL]
  | cons a p ih =>
    cases s with
    | nil => simp [startsWithL]
    | cons b s =>
      simp only [startsWithL, Bool.and_eq_true, beq_iff_eq, ih]
      constructor
      · rintro ⟨rfl, t, rfl⟩; exact ⟨t, rfl⟩
      · rintro ⟨t, h⟩
        rcases List.cons.injEq .. ▸ h with ⟨rfl, rfl⟩
        exact ⟨rfl, t, rfl⟩

theorem sub_of_pre {p s : Str} (h : p <+: s) : p <:+: s := by
  obtain ⟨t, ht⟩ := h
  exact ⟨[], t, by simpa using ht⟩

theorem sub_nil {p : Str} (h : p <:+: ([] : Str)) : p = [] := by
  obtain ⟨u, v, huv⟩ := h
  have := List.append_eq_nil.mp ((List.append_eq_nil.mp huv).1)
  exact this.2

theorem sub_cons_elim {p : Str} {c : Char} {s : Str} (h : p <:+: c :: s) :
    p <+: c :: s ∨ p <:+: s := by
  obtain ⟨u, v, huv⟩ := h
  cases u with
  | nil => exact Or.inl ⟨v, by simpa using huv⟩
  | cons d u =>
    have h2 : d :: (u ++ p ++ v) = c :: s := by simpa using huv
    exact Or.inr ⟨u, v, (List.cons.injEq .. ▸ h2).2⟩

theorem sub_cons_of_sub {p : Str} (c : Char) {s : Str} (h : p <:+: s) :
    p <:+: c :: s := by
  obtain ⟨u, v, huv⟩ := h
  exact ⟨c :: u, v, by simp [huv]⟩

theorem sub_trans {x y z : Str} (h1 : x <:+: y) (h2 : y <:+: z) : x <:+: z := by
  obtain ⟨u, v, rfl⟩ := h1
  obtain ⟨u', v', rfl⟩ := h2
  exact ⟨u' ++ u, v ++ v', by simp⟩

theorem containsSub_iff (pat s : Str) : containsSub pat s = true ↔ pat <:+: s := by
  induction s with
  | nil =>
    simp only [containsSub, startsWithL_true_iff]
    constructor
    · rintro ⟨t, ht⟩
      obtain ⟨h1, -⟩ := List.append_eq_nil.mp ht.symm
      subst h1; exact ⟨[], [], rfl⟩
    · intro h
      obtain rfl := sub_nil h
      exact ⟨[], rfl⟩
  | cons c s ih =>
    simp only [containsSub, Bool.or_eq_true, startsWithL_true_iff, ih]
    constructor
    · rintro (⟨t, ht⟩ | h)
      · exact sub_of_pre ⟨t, ht.symm⟩
      · exact sub_cons_of_sub c h
    · intro h
      rcases sub_cons_elim h with ⟨t, ht⟩ | h
      · exact Or.inl ⟨t, ht.symm⟩
      · exact Or.inr h

theorem dropWhile_sfx (p : Char → Bool) (l : Str) :
    ∃ u, u ++ l.dropWhile p = l := by
  induction l with
  | nil => exact ⟨[], rfl⟩
  | cons c l ih =>
    by_cases h : p c = true
    · obtain ⟨u, hu⟩ := ih
      exact ⟨c :: u, by simp [List.dropWhile_cons, h, hu]⟩
    · exact ⟨[], by simp [List.dropWhile_cons, h]⟩

theorem dropWhile_app_nil {p : Char → Bool} {l₁ : Str} (l₂ : Str)
    (h : l₁.dropWhile p = []) :
    (l₁ ++ l₂).dropWhile p = l₂.dropWhile p := by
  induction l₁ with
  | nil => rfl
  | cons c l ih =>
    by_cases hc : p c = true
    · have h' : l.dropWhile p = [] := by simpa [List.dropWhile_cons, hc] using h
      simpa [List.dropWhile_cons, hc] using ih h'
    · exfalso
      simp [List.dropWhile_cons, hc] at h

theorem dropWhile_app_cons {p : Char → Bool} {l₁ : Str} {c : Char} {r : Str}
    (l₂ : Str) (h : l₁.dropWhile p = c :: r) :
    (l₁ ++ l₂).dropWhile p = c :: (r ++ l₂) := by
  induction l₁ with
  | nil => simp at h
  | cons d l ih =>
    by_cases hd : p d = true
    · have h' : l.dropWhile p = c :: r := by simpa [List.dropWhile_cons, hd] using h
      simpa [List.dropWhile_cons, hd] using ih h'
    · simp only [List.dropWhile_cons, hd, if_neg, Bool.false_eq_true,
        not_false_iff, ite_false] at h
      obtain ⟨rfl, rfl⟩ := List.cons.injEq .. ▸ h
      simp [List.dropWhile_cons, hd]

theorem dropWhile_idem (p : Char → Bool) (l : Str) :
    (l.dropWhile p).dropWhile p = l.dropWhile p := by
  induction l with
  | nil => rfl
  | cons c l ih =>
    by_cases h : p c = true
    · simp [List.dropWhile_cons, h, ih]
    · simp [List.dropWhile_cons, h]

theorem dropWhile_of_all {p : Char → Bool} {l : Str}
    (h : ∀ c ∈ l, p c = false) : l.dropWhile p = l := by
  induction l with
  | nil => rfl
  | cons c l ih =>
    have hc := h c (by simp)
    simp [List.dropWhile_cons, hc, ih fun d hd => h d (by simp [hd])]

theorem strip_sub (l : Str) : stripList l <:+: l := by
  obtain ⟨u, hu⟩ := dropWhile_sfx isWsChar l
  obtain ⟨v, hv⟩ := dropWhile_sfx isWsChar (l.dropWhile isWsChar).reverse
  refine ⟨u, v.reverse, ?_⟩
  have hd : l.dropWhile isWsChar = stripList l ++ v.reverse := by
    have h2 : (l.dropWhile isWsChar).reverse.reverse =
        (v ++ (l.dropWhile isWsChar).reverse.dropWhile isWsChar).reverse := by
      rw [hv]
    simpa [stripList, List.reverse_append] using h2
  rw [List.append_assoc, ← hd, hu]

/-! ### Facts about the fenced-block scanner -/

theorem fence_chars : fenceL = [bq, bq, bq] := by decide

theorem splitAtFence_shape : ∀ {u a r : Str},
    splitAtFence u = some (a, r) → u = a ++ (fenceL ++ r) := by
  intro u
  induction u with
  | nil => intro a r h; simp [splitAtFence] at h
  | cons c u ih =>
    intro a r h
    by_cases hc : startsWithL fenceL (c :: u) = true
    · simp only [splitAtFence, hc, if_pos, Option.some.injEq, Prod.mk.injEq] at h
      obtain ⟨rfl, rfl⟩ := h
      obtain ⟨t, ht⟩ := (startsWithL_true_iff fenceL (c :: u)).mp hc
      rw [fence_chars] at ht
      rw [ht]
      simp [fence_chars]
    · simp only [splitAtFence, hc, if_neg, Bool.false_eq_true, not_false_iff,
        ite_false] at h
      cases hs : splitAtFence u with
      | none => rw [hs] at h; simp at h
      | some p =>
        obtain ⟨a', r'⟩ := p
        rw [hs] at h
        simp only [Option.some.injEq, Prod.mk.injEq] at h
        obtain ⟨rfl, rfl⟩ := h
        simp [ih hs]

theorem splitAtFence_noFence : ∀ {u a r : Str},
    splitAtFence u = some (a, r) → ¬ (fenceL <:+: a) := by
  intro u
  induction u with
  | nil => intro a r h; simp [splitAtFence] at h
  | cons c u ih =>
    intro a r h hf
    by_cases hc : startsWithL fenceL (c :: u) = true
    · simp only [splitAtFence, hc, if_pos, Option.some.injEq, Prod.mk.injEq] at h
      obtain ⟨rfl, rfl⟩ := h
      have := sub_nil hf
      rw [fence_chars] at this
      exact absurd this (by simp)
    · simp only [splitAtFence, hc, if_neg, Bool.false_eq_true, not_false_iff,
        ite_false] at h
      cases hs : splitAtFence u with
      | none => rw [hs] at h; simp at h
      | some p =>
        obtain ⟨a', r'⟩ := p
        rw [hs] at h
        simp only [Option.some.injEq, Prod.mk.injEq] at h
        obtain ⟨rfl, rfl⟩ := h
        rcases sub_cons_elim hf with ⟨t, ht⟩ | hsub
        · rw [fence_chars] at ht
          have hc2 : c = bq ∧ a' = bq :: bq :: t := by
            constructor
            · exact ((List.cons.injEq .. ▸ ht).1).symm
            · exact ((List.cons.injEq .. ▸ ht).2).symm
          obtain ⟨rfl, rfl⟩ := hc2
          have hu : u = (bq :: bq :: t) ++ (fenceL ++ r') := splitAtFence_shape hs
          apply hc
          rw [hu, fence_chars]
          simp [startsWithL]
        · exact ih hs hsub

theorem splitAtFence_app {a : Str} (r : Str) (h : bq ∉ a) :
    splitAtFence (a ++ (fenceL ++ r)) = some (a, r) := by
  induction a with
  | nil =>
    rw [List.nil_append, fence_chars]
    have hsw : startsWithL fenceL (bq :: bq :: bq :: r) = true := by
      have := startsWithL_app fenceL r
      rwa [fence_chars] at this
    simp [splitAtFence, hsw]
  | cons c a ih =>
    have hcb : c ≠ bq := fun hcc => h (by simp [hcc])
    have hsw : startsWithL fenceL (c :: (a ++ (fenceL ++ r))) = false := by
      rw [fence_chars]
      simp only [startsWithL, Bool.and_eq_true, beq_iff_eq]
      have : (bq == c) = false := beq_eq_false_iff_ne.mpr (Ne.symm hcb)
      simp [this]
    have ihh := ih (fun hm => h (by simp [hm]))
    simp [splitAtFence, hsw, ihh]

theorem matchAt_nil : matchAt [] = none := by decide

theorem matchAt_none {s : Str} (h : ¬ (fenceL <:+: s)) : matchAt s = none := by
  have hc : startsWithL fenceL s = false := by
    by_contra hcc
    simp only [Bool.not_eq_false] at hcc
    obtain ⟨t, ht⟩ := (startsWithL_true_iff fenceL s).mp hcc
    exact h (sub_of_pre ⟨t, ht.symm⟩)
  simp [matchAt, hc]

theorem matchAt_some_noFence {s a r : Str} (h : matchAt s = some (a, r)) :
    ¬ (fenceL <:+: a) := by
  by_cases hc : startsWithL fenceL s = true
  · simp only [matchAt, hc, if_pos] at h
    exact splitAtFence_noFence h
  · simp [matchAt, hc] at h

theorem matchAt_app (X : Str) :
    matchAt (fenceL ++ X) = splitAtFence ((tagDrop X).dropWhile isWsChar) := by
  have hsw := startsWithL_app fenceL X
  have hdrop : (fenceL ++ X).drop 3 = X := by
    rw [fence_chars]; rfl
  simp [matchAt, hsw, hdrop]

theorem findallAux_nil : ∀ (fuel : Nat) {s : Str},
    ¬ (fenceL <:+: s) → findallAux fuel s = [] := by
  intro fuel
  induction fuel with
  | zero => intro s _; rfl
  | succ fuel ih =>
    intro s h
    cases s with
    | nil => rfl
    | cons c s =>
      have hm := matchAt_none h
      have hs : ¬ (fenceL <:+: s) := fun hsub => h (sub_cons_of_sub c hsub)
      simp [findallAux, hm, ih hs]

theorem findallAux_head : ∀ (fuel : Nat) {s b : Str} {t : List Str},
    findallAux fuel s = b :: t → ¬ (fenceL <:+: b) := by
  intro fuel
  induction fuel with
  | zero => intro s b t h; simp [findallAux] at h
  | succ fuel ih =>
    intro s b t h
    cases s with
    | nil => simp [findallAux] at h
    | cons c s =>
      cases hm : matchAt (c :: s) with
      | some p =>
        obtain ⟨cap, rest⟩ := p
        rw [findallAux, hm] at h
        obtain ⟨rfl, -⟩ := List.cons.injEq .. ▸ h
        exact matchAt_some_noFence hm
      | none =>
        rw [findallAux, hm] at h
        exact ih h

theorem findallBlocks_head {s b : Str} {t : List Str}
    (h : findallBlocks s = b :: t) : ¬ (fenceL <:+: b) :=
  findallAux_head s.length h

theorem cleanCode_pos {s cap rest : Str} (h : matchAt s = some (cap, rest)) :
    cleanCode s = stripList cap := by
  cases s with
  | nil => rw [matchAt_nil] at h; simp at h
  | cons c s =>
    have hfb : findallBlocks (c :: s) = cap :: findallAux s.length rest := by
      simp [findallBlocks, findallAux, h]
    simp [cleanCode, hfb]

/-- C6 (normalization idempotence) is proved from: the first capture never
contains a fence, stripping only shrinks it, and fence-free text has no
blocks, so a second normalization returns its input unchanged. -/
theorem cleanCode_nil {s : Str} (h : findallBlocks s = []) : cleanCode s = s := by
  simp [cleanCode, h]

/-! ### Stripping lemmas -/

theorem strip_dropWhile (l : Str) :
    stripList (l.dropWhile isWsChar) = stripList l := by
  simp [stripList, dropWhile_idem]

theorem strip_nil_of_ws {l : Str} (h : l.dropWhile isWsChar = []) :
    stripList l = [] := by
  simp [stripList, h]

theorem strip_keeps_head_run {tag : Str} (z : Str) (hne : tag ≠ [])
    (hws : ∀ c ∈ tag, isWsChar c = false) :
    tag <+: stripList (tag ++ z) := by
  cases tag with
  | nil => exact absurd rfl hne
  | cons c tag =>
    have hdtag : (c :: tag).dropWhile isWsChar = c :: tag := dropWhile_of_all hws
    have hd1 : ((c :: tag) ++ z).dropWhile isWsChar = c :: (tag ++ z) :=
      dropWhile_app_cons z hdtag
    have hrev : (c :: (tag ++ z)).reverse = z.reverse ++ (c :: tag).reverse := by
      simp
    cases hz : z.reverse.dropWhile isWsChar with
    | nil =>
      have hrw : ∀ d ∈ (c :: tag).reverse, isWsChar d = false := by
        intro d hd
        exact hws d (List.mem_reverse.mp hd)
      have : stripList ((c :: tag) ++ z) = c :: tag := by
        rw [stripList, hd1]
        show ((c :: (tag ++ z)).reverse.dropWhile isWsChar).reverse = c :: tag
        rw [hrev, dropWhile_app_nil _ hz, dropWhile_of_all hrw]
        simp
      rw [this]
    | cons d r =>
      have : stripList ((c :: tag) ++ z) = (c :: tag) ++ (r.reverse ++ [d]) := by
        rw [stripList, hd1]
        show ((c :: (tag ++ z)).reverse.dropWhile isWsChar).reverse =
          (c :: tag) ++ (r.reverse ++ [d])
        rw [hrev, dropWhile_app_cons _ hz]
        simp
      rw [this]
      exact ⟨r.reverse ++ [d], rfl⟩

/-! ### Tag-recognition lemmas -/

theorem startsWithL_py_ext {tag : Str} (z : Str)
    (h : startsWithL "py".data tag = false) :
    startsWithL "py".data (tag ++ ('\n' :: z)) = false := by
  cases tag with
  | nil =>
    show startsWithL ['p', 'y'] ('\n' :: z) = false
    have hp : ('p' == '\n') = false := by decide
    simp [startsWithL, hp]
  | cons c tag' =>
    cases tag' with
    | nil =>
      show startsWithL ['p', 'y'] (c :: ('\n' :: z)) = false
      have hy : ('y' == '\n') = false := by decide
      simp [startsWithL, hy]
    | cons d tag'' =>
      have h2 : (('p' == c) && ('y' == d && startsWithL [] tag'')) = false := h
      show (('p' == c) && ('y' == d && startsWithL [] (tag'' ++ ('\n' :: z)))) = false
      simp only [startsWithL, Bool.and_eq_true] at h2 ⊢
      simpa [startsWithL] using h2

theorem startsWithL_python_py {s : Str}
    (h : startsWithL "python".data s = true) :
    startsWithL "py".data s = true := by
  obtain ⟨t, rfl⟩ := (startsWithL_true_iff _ s).mp h
  have hsplit : "python".data ++ t = "py".data ++ ("thon".data ++ t) := by
    simp
  rw [hsplit]
  exact startsWithL_app _ _

/-! ### Claim theorems for the code normalizer -/

def twoBlockInput : Str := "```python\nprint(1)\n``` and ```py\nprint(2)\n```".data

/-- C4: if the input contains fenced blocks, `_clean_code_for_execution`
returns the stripped body of the first one; concretely, for an input that
is a python-tagged fenced block followed by arbitrary further text
(including further blocks), the result is the stripped body of that first
block, everything after its closing fence being discarded. -/
theorem clean_first_block :
    (∀ (code b : Str) (t : List Str), findallBlocks code = b :: t →
        cleanCode code = stripList b) ∧
    (∀ body rest : Str, bq ∉ body →
        cleanCode ("```python\n".data ++ (body ++ (fenceL ++ rest))) =
          stripList body) := by
  constructor
  · intro code b t h
    simp [cleanCode, h]
  · intro body rest hb
    have hsplit : "```python\n".data ++ (body ++ (fenceL ++ rest)) =
        fenceL ++ ("python".data ++ ('\n' :: (body ++ (fenceL ++ rest)))) := by
      simp [fenceL]
    have htag : tagDrop ("python".data ++ ('\n' :: (body ++ (fenceL ++ rest)))) =
        '\n' :: (body ++ (fenceL ++ rest)) := by
      have hsw : startsWithL "python".data
          ("python".data ++ ('\n' :: (body ++ (fenceL ++ rest)))) = true :=
        startsWithL_app _ _
      simp only [tagDrop, hsw, if_pos]
      rfl
    have hwsn : isWsChar '\n' = true := by decide
    have hmatch1 : matchAt ("```python\n".data ++ (body ++ (fenceL ++ rest))) =
        splitAtFence ((body ++ (fenceL ++ rest)).dropWhile isWsChar) := by
      rw [hsplit, matchAt_app, htag]
      simp [List.dropWhile_cons, hwsn]
    cases hbody : body.dropWhile isWsChar with
    | nil =>
      have hdw : (body ++ (fenceL ++ rest)).dropWhile isWsChar =
          [] ++ (fenceL ++ rest) := by
        rw [dropWhile_app_nil _ hbody]
        rw [List.nil_append]
        have hf : fenceL.dropWhile isWsChar = bq :: [bq, bq] := by decide
        have := dropWhile_app_cons rest hf
        rw [this]
        simp [fence_chars]
      have hm : matchAt ("```python\n".data ++ (body ++ (fenceL ++ rest))) =
          some ([], rest) := by
        rw [hmatch1, hdw, splitAtFence_app rest (by simp)]
      rw [cleanCode_pos hm, strip_nil_of_ws hbody]
      rfl
    | cons c r =>
      have hcr : bq ∉ c :: r := by
        intro hm
        obtain ⟨u, hu⟩ := dropWhile_sfx isWsChar body
        rw [hbody] at hu
        exact hb (hu ▸ List.mem_append.mpr (Or.inr hm))
      have hdw : (body ++ (fenceL ++ rest)).dropWhile isWsChar =
          (c :: r) ++ (fenceL ++ rest) := by
        rw [dropWhile_app_cons _ hbody]
        rfl
      have hm : matchAt ("```python\n".data ++ (body ++ (fenceL ++ rest))) =
          some (c :: r, rest) := by
        rw [hmatch1, hdw, splitAtFence_app rest hcr]
      rw [cleanCode_pos hm, ← hbody, strip_dropWhile]

/-- C4 witness: an input holding two fenced blocks; the normalizer keeps
the stripped body of the first and discards the second. -/
theorem clean_first_block_witness :
    findallBlocks twoBlockInput = ["print(1)\n".data, "print(2)\n".data] ∧
    cleanCode twoBlockInput = stripList "print(1)\n".data ∧
    stripList "print(1)\n".data = "print(1)".data :=
  ⟨by decide,
   clean_first_block.1 twoBlockInput "print(1)\n".data ["print(2)\n".data]
     (by decide),
   by decide⟩

/-- C5 counterexample: on input `"  x  "`, which contains no fenced
block, the normalizer returns the input unchanged, NOT the trimmed
input as the claim states. -/
theorem clean_no_block_untrimmed :
    cleanCode "  x  ".data = "  x  ".data ∧
    cleanCode "  x  ".data ≠ stripList "  x  ".data := by
  constructor
  · decide
  · decide

/-- C5 as amended: on input containing no fenced block the normalizer
returns the original string unchanged (without trimming); it is total by
construction, and the empty input yields the empty output. -/
theorem clean_no_block_id :
    (∀ code : Str, findallBlocks code = [] → cleanCode code = code) ∧
    cleanCode [] = [] :=
  ⟨fun _ h => cleanCode_nil h, rfl⟩

/-- C5 witness: a fence-free input is returned as it came in. -/
theorem clean_no_block_id_witness :
    findallBlocks "import os".data = [] ∧
    cleanCode "import os".data = "import os".data :=
  ⟨by decide, clean_no_block_id.1 "import os".data (by decide)⟩

/-- C6: normalization is idempotent.  The first captured block never
contains a fence delimiter, stripping it only removes end whitespace, so
the second pass finds no block and returns its input unchanged. -/
theorem clean_idempotent (code : Str) :
    cleanCode (cleanCode code) = cleanCode code := by
  cases h : findallBlocks code with
  | nil => rw [cleanCode_nil h, cleanCode_nil h]
  | cons b t =>
    have hb : ¬ (fenceL <:+: b) := findallBlocks_head h
    have hsb : ¬ (fenceL <:+: stripList b) := fun hf =>
      hb (sub_trans hf (strip_sub b))
    have h3 : findallBlocks (stripList b) = [] := findallAux_nil _ hsb
    have hc : cleanCode code = stripList b := by simp [cleanCode, h]
    rw [hc, cleanCode_nil h3]

/-- C10 counterexample: the tag `pytorch` is neither `python` nor `py`,
yet the normalizer consumes its leading `py`, so the returned body starts
with `torch`, not with the tag text. -/
theorem clean_py_tag_eaten :
    cleanCode "```pytorch\nx = 1```".data = "torch\nx = 1".data ∧
    startsWithL "pytorch".data (cleanCode "```pytorch\nx = 1```".data) = false := by
  constructor
  · decide
  · decide

/-- C10 as amended: for a fenced block whose language tag does not have
`py` as a prefix (hence in particular is neither `python` nor `py`), the
tag is not stripped: the returned body starts with the tag text.  The tag
is assumed nonempty and made of non-whitespace, non-backtick characters,
and the body fence-free, as in any well-formed tagged block. -/
theorem clean_keeps_nonpy_tag (tag body rest : Str) (hne : tag ≠ [])
    (hchars : ∀ c ∈ tag, isWsChar c = false ∧ c ≠ bq)
    (hpy : startsWithL "py".data tag = false) (hbody : bq ∉ body) :
    tag <+: cleanCode (fenceL ++ (tag ++ ('\n' :: (body ++ (fenceL ++ rest))))) := by
  have hpyX : startsWithL "py".data
      (tag ++ ('\n' :: (body ++ (fenceL ++ rest)))) = false :=
    startsWithL_py_ext _ hpy
  have hpythonX : startsWithL "python".data
      (tag ++ ('\n' :: (body ++ (fenceL ++ rest)))) = false := by
    by_contra hcc
    simp only [Bool.not_eq_false] at hcc
    rw [startsWithL_python_py hcc] at hpyX
    simp at hpyX
  have htag : tagDrop (tag ++ ('\n' :: (body ++ (fenceL ++ rest)))) =
      tag ++ ('\n' :: (body ++ (fenceL ++ rest))) := by
    simp [tagDrop, hpyX, hpythonX]
  have hx : (tag ++ ('\n' :: (body ++ (fenceL ++ rest)))).dropWhile isWsChar =
      tag ++ ('\n' :: (body ++ (fenceL ++ rest))) := by
    cases tag with
    | nil => exact absurd rfl hne
    | cons c tag' =>
      have hc := (hchars c (by simp)).1
      simp [List.dropWhile_cons, hc]
  have hassoc : tag ++ ('\n' :: (body ++ (fenceL ++ rest))) =
      (tag ++ ('\n' :: body)) ++ (fenceL ++ rest) := by
    simp
  have hnb : bq ∉ tag ++ ('\n' :: body) := by
    intro hm
    rcases List.mem_append.mp hm with hm1 | hm2
    · exact (hchars bq hm1).2 rfl
    · rcases List.mem_cons.mp hm2 with hm3 | hm4
      · exact absurd hm3.symm (by decide)
      · exact hbody hm4
  have hm : matchAt (fenceL ++ (tag ++ ('\n' :: (body ++ (fenceL ++ rest))))) =
      some (tag ++ ('\n' :: body), rest) := by
    rw [matchAt_app, htag, hx, hassoc, splitAtFence_app rest hnb]
  rw [cleanCode_pos hm]
  exact strip_keeps_head_run _ hne (fun c hc => (hchars c hc).1)

/-- C10 witness: a `javascript`-tagged block keeps its tag in the
returned body. -/
theorem clean_keeps_nonpy_tag_witness :
    "javascript".data ≠ ([] : Str) ∧
    startsWithL "py".data "javascript".data = false ∧
    "javascript".data <+:
      cleanCode (fenceL ++ ("javascript".data ++
        ('\n' :: ("var a = 1".data ++ (fenceL ++ ([] : Str)))))) :=
  ⟨by decide, by decide,
   clean_keeps_nonpy_tag "javascript".data "var a = 1".data []
     (by decide) (by decide) (by decide) (by decide)⟩

/-! ### The execution sandbox model

`execute_python_code` is modelled over an explicit process/filesystem
state.  The submitted program is an oracle (`Semantics`) because `exec`
of arbitrary Python cannot be embedded; the wrapper's own control flow —
normalization, scratch-directory setup, output capture and assembly,
plot handling, and the `finally` cleanup — is translated step by step
from the source. -/

structure World where
  cwd : Str
  sysPath : List Str
  files : List Str
  figs : List Nat
  fresh : Nat

/-- What one run of the submitted code produced: text written to the
captured stdout and stderr streams, an optional raised exception (its
`str(e)` message) with the corresponding traceback text, and the world
it left behind (the code may chdir, create files, open figures...). -/
structure CodeRun where
  out : Str
  err : Str
  exn : Option Str
  tb : Str
  w : World

def Semantics := Str → Option Str → World → CodeRun

/-- The fresh scratch directory `tempfile.mkdtemp()` returns; uniqueness
of the names produced by the OS is modelled by the fresh counter. -/
def tempDir (w : World) : Str := "/tmp/exec".data ++ List.replicate w.fresh 'x'

/-- The temporary code file `tempfile.NamedTemporaryFile` creates. -/
def codeFile (w : World) : Str :=
  "/tmp/code".data ++ List.replicate w.fresh 'x' ++ ".py".data

/-- State after the setup steps of `execute_python_code`: chdir into the
scratch directory, insert it at the front of `sys.path`, write the code
file, consume a fresh name. -/
def setupWorld (w : World) : World :=
  { cwd := tempDir w, sysPath := tempDir w :: w.sysPath,
    files := codeFile w :: w.files, figs := w.figs, fresh := w.fresh + 1 }

/-- The run of the submitted code inside `execute_python_code`: the code
text is normalized first, and the code sees the world after setup. -/
def runOf (sem : Semantics) (code : Str) (fp : Option Str) (w : World) : CodeRun :=
  sem (cleanCode code) fp (setupWorld w)

def plotFile (td : Str) : Str := td ++ "/plot.png".data

/-- Result assembly of `execute_python_code` after the `exec` call:
if the code raised, the `except` branch formats message and traceback;
otherwise open figures are saved to `plot.png` with a note appended to
the output, and a nonempty error stream turns the result into the
error narrative, else the result is the stdout text verbatim. -/
def assemble (r : CodeRun) (td : Str) : Str × World :=
  match r.exn with
  | some msg =>
    ("Code execution error: ".data ++ msg ++ "\n\n".data ++ r.tb, r.w)
  | none =>
    let output := if r.w.figs = [] then r.out
      else r.out ++ "\n[Plot saved to ".data ++ plotFile td ++ "]".data
    let w2 := if r.w.figs = [] then r.w
      else { r.w with files := plotFile td :: r.w.files, figs := [] }
    if r.err = [] then (output, w2)
    else ("Code execution error:\n".data ++ r.err ++
            "\n\nOutput (if any):\n".data ++ output, w2)

/-- The `finally` block: restore the working directory, best-effort
delete of the code file (erasing a missing file is a no-op, as the
swallowed exception is in the source), and remove the scratch directory
from `sys.path` if present (`list.remove`, first occurrence). -/
def finalize (w0 w2 : World) : World :=
  { w2 with cwd := w0.cwd,
            files := w2.files.erase (codeFile w0),
            sysPath := if tempDir w0 ∈ w2.sysPath
                       then w2.sysPath.erase (tempDir w0)
                       else w2.sysPath }

/-- `execute_python_code`: a total function from code, optional data
path and world to result text and final world. -/
def execute (sem : Semantics) (code : Str) (fp : Option Str) (w : World) :
    Str × World :=
  ((assemble (runOf sem code fp w) (tempDir w)).1,
   finalize w (assemble (runOf sem code fp w) (tempDir w)).2)

theorem sub_app_of_sub_left {x a : Str} (b : Str) (h : x <:+: a) :
    x <:+: a ++ b := by
  obtain ⟨u, v, rfl⟩ := h
  exact ⟨u, v ++ b, by simp⟩

theorem assemble_sysPath (r : CodeRun) (td : Str) :
    (assemble r td).2.sysPath = r.w.sysPath := by
  cases hexn : r.exn with
  | some msg => simp [assemble, hexn]
  | none =>
    by_cases hfig : r.w.figs = [] <;> by_cases herr : r.err = [] <;>
      simp [assemble, hexn, hfig, herr]

theorem assemble_err_eq (r : CodeRun) (td : Str) (hexn : r.exn = none)
    (herr : r.err ≠ []) :
    (assemble r td).1 = "Code execution error:\n".data ++ (r.err ++
      ("\n\nOutput (if any):\n".data ++ (if r.w.figs = [] then r.out
        else r.out ++ ("\n[Plot saved to ".data ++
          (plotFile td ++ "]".data))))) := by
  by_cases hfig : r.w.figs = [] <;>
    simp [assemble, hexn, herr, hfig, List.append_assoc]

theorem assemble_ok_eq (r : CodeRun) (td : Str) (hexn : r.exn = none)
    (herr : r.err = []) (hfig : r.w.figs = []) :
    (assemble r td).1 = r.out := by
  simp [assemble, hexn, herr, hfig]

/-! ### Demonstration worlds and code behaviors used by witnesses -/

def w0demo : World :=
  { cwd := "/app".data, sysPath := [], files := [], figs := [], fresh := 0 }

def semRaise : Semantics := fun _ _ w =>
  { out := [], err := [], exn := some "boom".data,
    tb := "Traceback (most recent call last): ValueError: boom".data, w := w }

def semPrintHello : Semantics := fun _ _ w =>
  { out := "hello\n".data, err := [], exn := none, tb := [], w := w }

def semStderrOnly : Semantics := fun _ _ w =>
  { out := "partial\n".data, err := "oops\n".data, exn := none, tb := [], w := w }

def semStderrRaise : Semantics := fun _ _ w =>
  { out := "partial".data, err := "oops".data, exn := some "boom".data,
    tb := "tb".data, w := w }

def semAddPath : Semantics := fun _ _ w =>
  { out := [], err := [], exn := none, tb := [],
    w := { w with sysPath := w.cwd :: w.sysPath } }

/-! ### Claim theorems for the execution sandbox -/

/-- C1: for every submitted code, every optional data path and every
starting state, `execute_python_code` returns a result string (it is a
total function of this model by construction), and when the submitted
code raises, the result contains the substring `execution error` and the
original error message text. -/
theorem execute_error_narrative (sem : Semantics) (code : Str)
    (fp : Option Str) (w : World) (msg : Str)
    (h : (runOf sem code fp w).exn = some msg) :
    ("execution error".data <:+: (execute sem code fp w).1) ∧
    (msg <:+: (execute sem code fp w).1) := by
  have hres : (execute sem code fp w).1 =
      "Code execution error: ".data ++ msg ++ "\n\n".data ++
        (runOf sem code fp w).tb := by
    show (assemble (runOf sem code fp w) (tempDir w)).1 = _
    simp [assemble, h]
  constructor
  · have hA : "Code execution error: ".data =
        ("Code ".data ++ "execution error".data) ++ ": ".data := by decide
    refine ⟨"Code ".data,
      ": ".data ++ (msg ++ ("\n\n".data ++ (runOf sem code fp w).tb)), ?_⟩
    rw [hres, hA]
    simp [List.append_assoc]
  · refine ⟨"Code execution error: ".data,
      "\n\n".data ++ (runOf sem code fp w).tb, ?_⟩
    rw [hres]
    simp [List.append_assoc]

/-- C1 witness: a run that raises `ValueError: boom`. -/
theorem execute_error_narrative_witness :
    (runOf semRaise "raise ValueError".data none w0demo).exn =
      some "boom".data ∧
    (("execution error".data <:+:
        (execute semRaise "raise ValueError".data none w0demo).1) ∧
     ("boom".data <:+:
        (execute semRaise "raise ValueError".data none w0demo).1)) :=
  ⟨rfl, execute_error_narrative semRaise "raise ValueError".data none w0demo
          "boom".data rfl⟩

/-- C2: on every exit path — exception or not, and even when the
submitted code changed the working directory — the `finally` block
restores the process-wide working directory to its value from before
the call. -/
theorem execute_restores_cwd (sem : Semantics) (code : Str)
    (fp : Option Str) (w : World) :
    ((execute sem code fp w).2).cwd = w.cwd := rfl

/-- C3 counterexample: a run that writes to the captured error stream
and then raises.  Something was written to the error stream, but the
result is the exception narrative, which contains neither the captured
error text nor the captured stdout — refuting the claim as stated. -/
theorem execute_stderr_lost :
    (runOf semStderrRaise "x".data none w0demo).err = "oops".data ∧
    ¬ ("oops".data <:+: (execute semStderrRaise "x".data none w0demo).1) := by
  constructor
  · rfl
  · intro hc
    have hb : containsSub "oops".data
        (execute semStderrRaise "x".data none w0demo).1 = true :=
      (containsSub_iff _ _).mpr hc
    have hb2 : containsSub "oops".data
        (execute semStderrRaise "x".data none w0demo).1 = false := by decide
    rw [hb] at hb2
    exact absurd hb2 (by decide)

/-- C3 as amended (restricted to runs that complete without raising, as
the counterexample forces): if the run wrote to the captured error
stream, the result is the execution-error narrative containing the
captured error text followed by the captured stdout; if the error stream
is empty and no plot figure is open, the result is the captured stdout
verbatim. -/
theorem execute_output_assembly (sem : Semantics) (code : Str)
    (fp : Option Str) (w : World)
    (hexn : (runOf sem code fp w).exn = none) :
    ((runOf sem code fp w).err ≠ [] →
      ("execution error".data <:+: (execute sem code fp w).1) ∧
      ∃ mid tail, (execute sem code fp w).1 =
        "Code execution error:\n".data ++ (runOf sem code fp w).err ++
          mid ++ (runOf sem code fp w).out ++ tail) ∧
    ((runOf sem code fp w).err = [] → (runOf sem code fp w).w.figs = [] →
      (execute sem code fp w).1 = (runOf sem code fp w).out) := by
  constructor
  · intro herr
    have hres : (execute sem code fp w).1 =
        "Code execution error:\n".data ++ ((runOf sem code fp w).err ++
          ("\n\nOutput (if any):\n".data ++
            (if (runOf sem code fp w).w.figs = [] then (runOf sem code fp w).out
             else (runOf sem code fp w).out ++ ("\n[Plot saved to ".data ++
               (plotFile (tempDir w) ++ "]".data))))) :=
      assemble_err_eq (runOf sem code fp w) (tempDir w) hexn herr
    constructor
    · rw [hres]
      exact sub_app_of_sub_left _ ((containsSub_iff _ _).mp (by decide))
    · by_cases hfig : (runOf sem code fp w).w.figs = []
      · refine ⟨"\n\nOutput (if any):\n".data, [], ?_⟩
        rw [hres, hfig]
        simp [List.append_assoc]
      · refine ⟨"\n\nOutput (if any):\n".data,
          "\n[Plot saved to ".data ++ (plotFile (tempDir w) ++ "]".data), ?_⟩
        rw [hres]
        simp [hfig, List.append_assoc]
  · intro herr hfig
    exact assemble_ok_eq (runOf sem code fp w) (tempDir w) hexn herr hfig

/-- C3 witness: a clean `print("hello")` run returns exactly the text
`hello` with newline, and a run with a nonempty error stream returns the
error narrative with error text followed by stdout. -/
theorem execute_output_assembly_witness :
    (execute semPrintHello "print".data none w0demo).1 = "hello\n".data ∧
    (("execution error".data <:+:
        (execute semStderrOnly "x".data none w0demo).1) ∧
     ∃ mid tail, (execute semStderrOnly "x".data none w0demo).1 =
       "Code execution error:\n".data ++ "oops\n".data ++ mid ++
         "partial\n".data ++ tail) :=
  ⟨(execute_output_assembly semPrintHello "print".data none w0demo rfl).2
      rfl rfl,
   (execute_output_assembly semStderrOnly "x".data none w0demo rfl).1
      (by decide)⟩

/-- C7 counterexample: submitted code that itself pushes the scratch
directory onto the search path once more.  The cleanup removes only the
first occurrence, so the scratch-directory entry survives the call,
refuting the claim for arbitrary submitted code. -/
theorem execute_syspath_leak :
    tempDir w0demo ∈ ((execute semAddPath "x".data none w0demo).2).sysPath := by
  decide

/-- C7 as amended: provided the submitted code does not leave extra
copies of the scratch-directory entry on the search path (after removing
one copy none remains — true in particular for any code that does not
touch the search path), the cleanup removes the entry on every exit
path, so no scratch-directory entry leaks into a later call's scope. -/
theorem execute_syspath_removed (sem : Semantics) (code : Str)
    (fp : Option Str) (w : World)
    (h : tempDir w ∉
      ((runOf sem code fp w).w.sysPath.erase (tempDir w))) :
    tempDir w ∉ ((execute sem code fp w).2).sysPath := by
  have hA : (assemble (runOf sem code fp w) (tempDir w)).2.sysPath =
      (runOf sem code fp w).w.sysPath := assemble_sysPath _ _
  show tempDir w ∉
    (finalize w (assemble (runOf sem code fp w) (tempDir w)).2).sysPath
  simp only [finalize, hA]
  by_cases hmem : tempDir w ∈ (runOf sem code fp w).w.sysPath
  · simp [hmem, h]
  · simp [hmem]

/-- C7 witness: a run that does not touch the search path; afterwards
the scratch-directory entry is gone. -/
theorem execute_syspath_removed_witness :
    (tempDir w0demo ∉
      ((runOf semPrintHello "p".data none w0demo).w.sysPath.erase
        (tempDir w0demo))) ∧
    tempDir w0demo ∉
      ((execute semPrintHello "p".data none w0demo).2).sysPath :=
  ⟨by decide,
   execute_syspath_removed semPrintHello "p".data none w0demo (by decide)⟩

/-! ### Artifact discovery (`ReportAgent._extract_image_paths`)

The routine runs eight `re.findall` scans (case-insensitive) over the
execution result, each of the shape "literal phrase, then a path token":
one or more characters drawn from letters, digits, underscore, dot,
slash and dash, then a literal dot and one of the extensions png, jpg,
jpeg, svg, pdf.  Two of the patterns are followed by a closing quote.  A pattern is a list of alternation groups of literals (tried in
order, the empty literal encoding an optional group) before the token,
plus such a list after the token's extension.  Backtracking order —
alternatives in listed order, the token's character run greedy from
longest, extensions in listed order — follows Python's engine. -/

def litMatch : Str → Str → Option Str
  | [], s => some s
  | _ :: _, [] => none
  | a :: p, b :: s => if a.toLower == b.toLower then litMatch p s else none

def isTokChar (c : Char) : Bool :=
  c.isAlphanum || c == '_' || c == '.' || c == '/' || c == '-'

def extsList : List Str :=
  ["png".data, "jpg".data, "jpeg".data, "svg".data, "pdf".data]

/-- All ways to consume the alternation groups `gs` from `s`, listing the
possible remainders in backtracking order. -/
def matchSeq : List (List Str) → Str → List Str
  | [], s => [s]
  | g :: gs, s =>
    (g.filterMap (fun alt => litMatch alt s)).flatMap (fun r => matchSeq gs r)

def firstSome : List Str → (Str → Option (Str × Str)) → Option (Str × Str)
  | [], _ => none
  | r :: rs, f =>
    match f r with
    | some x => some x
    | none => firstSome rs f

/-- Try the extension alternatives after the literal dot; on success the
capture is the token run, the dot and the extension as they appear in
the text, and the remainder is what follows the post groups. -/
def tryExts (post : List (List Str)) (A rest2 : Str) :
    List Str → Option (Str × Str)
  | [] => none
  | e :: es =>
    match litMatch e rest2 with
    | some after =>
      match matchSeq post after with
      | rem :: _ => some (A ++ ('.' :: rest2.take e.length), rem)
      | [] => tryExts post A rest2 es
    | none => tryExts post A rest2 es

def dotStep (post : List (List Str)) (s : Str) (n : Nat) : Option (Str × Str) :=
  match s.drop n with
  | c :: rest2 =>
    if c == '.' then tryExts post (s.take n) rest2 extsList else none
  | [] => none

/-- Greedy one-or-more repetition of the token class with backtracking:
try the longest character run first, shrinking until the literal dot and
an extension fit. -/
def tryA (post : List (List Str)) (s : Str) : Nat → Option (Str × Str)
  | 0 => none
  | a + 1 =>
    match dotStep post s (a + 1) with
    | some x => some x
    | none => tryA post s a

def matchToken (post : List (List Str)) (s : Str) : Option (Str × Str) :=
  tryA post s (s.takeWhile isTokChar).length

def matchPatAt (pre post : List (List Str)) (s : Str) : Option (Str × Str) :=
  firstSome (matchSeq pre s) (fun r => matchToken post r)

/-- `re.findall` for one pattern: leftmost scan, continuing after each
match; fuel as in `findallAux`. -/
def findAllAux (pre post : List (List Str)) : Nat → Str → List Str
  | 0, _ => []
  | _ + 1, [] => []
  | fuel + 1, c :: s =>
    match matchPatAt pre post (c :: s) with
    | some (cap, rest) => cap :: findAllAux pre post fuel rest
    | none => findAllAux pre post fuel s

def findAllPat (pre post : List (List Str)) (s : Str) : List Str :=
  findAllAux pre post s.length s

/-- The single-quote character, kept out of literals. -/
def sqc : Char := Char.ofNat 39

def quoteGroup : List Str := [[sqc], "\"".data]

def patSavedTo : List (List Str) := [["saved ".data], ["to ".data, []]]
def patSavedAs : List (List Str) := [["saved ".data], ["as ".data, []]]
def patSavedBare : List (List Str) := [["saved ".data]]
def patCreated : List (List Str) := [["created ".data]]
def patOutputTo : List (List Str) :=
  [["output ".data], ["to ".data, "as ".data, []]]
def patWritGen : List (List Str) :=
  [["written ".data, "generated ".data], ["to ".data, []]]
def patPltSave : List (List Str) := [["plt.savefig(".data], quoteGroup]
def patFigSave : List (List Str) := [["fig.savefig(".data], quoteGroup]

/-- The eight scans of `_extract_image_paths`, concatenated in source
order. -/
def textCandidates (text : Str) : List Str :=
  findAllPat patSavedTo [] text ++ findAllPat patSavedAs [] text ++
  findAllPat patSavedBare [] text ++ findAllPat patCreated [] text ++
  findAllPat patOutputTo [] text ++ findAllPat patWritGen [] text ++
  findAllPat patPltSave [quoteGroup] text ++
  findAllPat patFigSave [quoteGroup] text

def isAbs : Str → Bool
  | [] => false
  | c :: _ => c == '/'

/-- `os.path.abspath` for already-clean inputs: absolute paths are kept,
relative ones are joined onto the current working directory. -/
def resolvePath (cwd p : Str) : Str := if isAbs p then p else cwd ++ ('/' :: p)

/-- The text-matching pass: every candidate is stripped and resolved,
and only paths of files that exist are kept. -/
def textualPass (text : Str) (files : List Str) (cwd : Str) : List Str :=
  ((textCandidates text).map (fun m => resolvePath cwd (stripList m))).filter
    (fun p => decide (p ∈ files))

def dropLead : Str → Str → Option Str
  | [], s => some s
  | _ :: _, [] => none
  | a :: p, b :: s => if a == b then dropLead p s else none

/-- The file `f` is an immediate entry of directory `cwd`. -/
def inDir (cwd f : Str) : Bool :=
  match dropLead (cwd ++ ['/']) f with
  | some rest => decide (rest ≠ []) && ! rest.contains '/'
  | none => false

def endsWithL (suf s : Str) : Bool := startsWithL suf.reverse s.reverse

def imageExts : List Str :=
  [".png".data, ".jpg".data, ".jpeg".data, ".svg".data, ".pdf".data]

def hasImageExt (f : Str) : Bool := imageExts.any (fun e => endsWithL e f)

/-- The directory-scan pass: entries of the current directory with an
image extension that were modified within the last minute. -/
def dirPass (files : List Str) (cwd : Str) (mtime : Str → Nat) (now : Nat) :
    List Str :=
  files.filter (fun f => inDir cwd f && hasImageExt f &&
    decide (now - mtime f < 60))

def rawPaths (text : Str) (files : List Str) (cwd : Str) (mtime : Str → Nat)
    (now : Nat) : List Str :=
  textualPass text files cwd ++ dirPass files cwd mtime now

/-- The final deduplication loop: keep each path's first occurrence. -/
def dedupAux (acc : List Str) : List Str → List Str
  | [] => acc
  | p :: rest =>
    if p ∈ acc then dedupAux acc rest else dedupAux (acc ++ [p]) rest

def dedupFirst (l : List Str) : List Str := dedupAux [] l

/-- `_extract_image_paths` over the model state: the text pass, the
directory pass, then first-seen deduplication. -/
def extractImagePaths (text : Str) (files : List Str) (cwd : Str)
    (mtime : Str → Nat) (now : Nat) : List Str :=
  dedupFirst (rawPaths text files cwd mtime now)

example : findAllPat patSavedTo [] "saved to chart.png\n".data =
  ["chart.png".data] := by decide
example : findAllPat patSavedBare [] "saved to chart.png\n".data = [] := by decide
example : findAllPat patSavedTo [] "Saved To Chart.PNG".data =
  ["Chart.PNG".data] := by decide
example : findAllPat patSavedTo [] "saved a.pngx done".data =
  ["a.png".data] := by decide
example : findAllPat patPltSave [quoteGroup] "plt.savefig(\"out.jpeg\")".data =
  ["out.jpeg".data] := by decide
example : dedupFirst ["a".data, "b".data, "a".data] = ["a".data, "b".data] := by
  decide

/-! ### Facts about artifact discovery -/

theorem dedupAux_nodup : ∀ (l acc : List Str), acc.Nodup →
    (dedupAux acc l).Nodup := by
  intro l
  induction l with
  | nil => intro acc h; exact h
  | cons p rest ih =>
    intro acc h
    by_cases hp : p ∈ acc
    · simpa [dedupAux, hp] using ih acc h
    · have h2 : (acc ++ [p]).Nodup := by
        rw [List.nodup_append]
        refine ⟨h, List.nodup_singleton p, ?_⟩
        intro a ha hb
        rw [List.mem_singleton] at hb
        exact hp (hb ▸ ha)
      simpa [dedupAux, hp] using ih (acc ++ [p]) h2

theorem dedupAux_mem : ∀ (l acc : List Str) (x : Str),
    x ∈ dedupAux acc l ↔ (x ∈ acc ∨ x ∈ l) := by
  intro l
  induction l with
  | nil => intro acc x; simp [dedupAux]
  | cons p rest ih =>
    intro acc x
    by_cases hp : p ∈ acc
    · rw [show dedupAux acc (p :: rest) = dedupAux acc rest by
        simp [dedupAux, hp], ih]
      constructor
      · rintro (h | h)
        · exact Or.inl h
        · exact Or.inr (List.mem_cons_of_mem p h)
      · rintro (h | h)
        · exact Or.inl h
        · rcases List.mem_cons.mp h with rfl | h2
          · exact Or.inl hp
          · exact Or.inr h2
    · rw [show dedupAux acc (p :: rest) = dedupAux (acc ++ [p]) rest by
        simp [dedupAux, hp], ih]
      constructor
      · rintro (h | h)
        · rcases List.mem_append.mp h with h2 | h2
          · exact Or.inl h2
          · exact Or.inr (List.mem_cons.mpr (Or.inl (List.mem_singleton.mp h2)))
        · exact Or.inr (List.mem_cons_of_mem p h)
      · rintro (h | h)
        · exact Or.inl (List.mem_append.mpr (Or.inl h))
        · rcases List.mem_cons.mp h with rfl | h2
          · exact Or.inl (List.mem_append.mpr (Or.inr (List.mem_singleton.mpr rfl)))
          · exact Or.inr h2

theorem dedupAux_shape : ∀ (l acc : List Str),
    ∃ l', dedupAux acc l = acc ++ l' ∧ List.Sublist l' l := by
  intro l
  induction l with
  | nil => intro acc; exact ⟨[], by simp [dedupAux], by simp⟩
  | cons p rest ih =>
    intro acc
    by_cases hp : p ∈ acc
    · obtain ⟨l', h1, h2⟩ := ih acc
      exact ⟨l', by simpa [dedupAux, hp] using h1, h2.cons p⟩
    · obtain ⟨l', h1, h2⟩ := ih (acc ++ [p])
      refine ⟨p :: l', ?_, h2.cons₂ p⟩
      rw [show dedupAux acc (p :: rest) = dedupAux (acc ++ [p]) rest by
        simp [dedupAux, hp], h1]
      simp

theorem dedupFirst_nodup (l : List Str) : (dedupFirst l).Nodup :=
  dedupAux_nodup l [] List.nodup_nil

theorem dedupFirst_sublist (l : List Str) : List.Sublist (dedupFirst l) l := by
  obtain ⟨l', h1, h2⟩ := dedupAux_shape l []
  rw [dedupFirst, h1]
  simpa using h2

theorem dedupFirst_mem (l : List Str) (x : Str) :
    x ∈ dedupFirst l ↔ x ∈ l := by
  rw [dedupFirst, dedupAux_mem]
  simp

theorem dropLead_shape : ∀ {p s r : Str}, dropLead p s = some r → s = p ++ r := by
  intro p
  induction p with
  | nil => intro s r h; simpa [dropLead] using h
  | cons a p ih =>
    intro s r h
    cases s with
    | nil => simp [dropLead] at h
    | cons b s =>
      by_cases hab : (a == b) = true
      · simp only [dropLead, hab, if_pos] at h
        have hab2 : a = b := eq_of_beq hab
        rw [← hab2, ih h]
        rfl
      · simp [dropLead, hab] at h

theorem isAbs_app {cwd : Str} (z : Str) (h : isAbs cwd = true) :
    isAbs (cwd ++ z) = true := by
  cases cwd with
  | nil => simp [isAbs] at h
  | cons c rest => simpa [isAbs] using h

theorem rawPaths_abs_mem (text : Str) (files : List Str) (cwd : Str)
    (mtime : Str → Nat) (now : Nat) (hcwd : isAbs cwd = true) :
    ∀ p ∈ rawPaths text files cwd mtime now, isAbs p = true ∧ p ∈ files := by
  intro p hp
  rcases List.mem_append.mp hp with h | h
  · obtain ⟨h1, h2⟩ := List.mem_filter.mp h
    refine ⟨?_, of_decide_eq_true h2⟩
    obtain ⟨m, hm, rfl⟩ := List.mem_map.mp h1
    by_cases habs : isAbs (stripList m) = true
    · simp [resolvePath, habs]
    · have hr : resolvePath cwd (stripList m) = cwd ++ ('/' :: stripList m) := by
        simp [resolvePath, habs]
      rw [hr]
      exact isAbs_app _ hcwd
  · obtain ⟨h1, h2⟩ := List.mem_filter.mp h
    refine ⟨?_, h1⟩
    have h3 : inDir cwd p = true := by
      rcases Bool.and_eq_true .. ▸ h2 with ⟨h4, -⟩
      rcases Bool.and_eq_true .. ▸ h4 with ⟨h5, -⟩
      exact h5
    unfold inDir at h3
    cases hd : dropLead (cwd ++ ['/']) p with
    | none => rw [hd] at h3; simp at h3
    | some rest =>
      rw [dropLead_shape hd, List.append_assoc]
      exact isAbs_app _ hcwd

theorem textualPass_no_files (text : Str) (cwd : Str) :
    textualPass text [] cwd = [] := by
  apply List.filter_eq_nil_iff.mpr
  intro a _
  simp

/-- C9: artifact discovery returns a list without duplicates, a
subsequence of the raw candidate stream (so first-seen order is
preserved) containing exactly the candidates' members; every returned
path is absolute and exists among the files on disk (so every
text-pattern match whose resolved path does not exist was discarded);
and with no files on disk the result is the empty list. -/
theorem extract_paths_spec (text : Str) (files : List Str) (cwd : Str)
    (mtime : Str → Nat) (now : Nat) (hcwd : isAbs cwd = true) :
    (extractImagePaths text files cwd mtime now).Nodup ∧
    List.Sublist (extractImagePaths text files cwd mtime now)
      (rawPaths text files cwd mtime now) ∧
    (∀ p, p ∈ extractImagePaths text files cwd mtime now ↔
      p ∈ rawPaths text files cwd mtime now) ∧
    (∀ p ∈ extractImagePaths text files cwd mtime now,
      isAbs p = true ∧ p ∈ files) ∧
    (files = [] → extractImagePaths text files cwd mtime now = []) := by
  refine ⟨dedupFirst_nodup _, dedupFirst_sublist _, fun p => dedupFirst_mem _ p,
    ?_, ?_⟩
  · intro p hp
    exact rawPaths_abs_mem text files cwd mtime now hcwd p
      ((dedupFirst_mem _ p).mp hp)
  · intro hf
    subst hf
    rw [extractImagePaths, rawPaths, textualPass_no_files]
    rfl

/-- C9 witness: a result text announcing a save, with nothing on disk —
discovery returns the empty list, a valid result. -/
theorem extract_paths_spec_witness :
    isAbs "/app".data = true ∧
    extractImagePaths "saved to chart.png\n".data [] "/app".data
      (fun _ => 0) 0 = [] :=
  ⟨by decide,
   (extract_paths_spec "saved to chart.png\n".data [] "/app".data
      (fun _ => 0) 0 (by decide)).2.2.2.2 rfl⟩

/-- Submitted code of the C8 scenario: it creates `chart.png` in the
current (scratch) directory and prints `saved to chart.png`. -/
def semChart : Semantics := fun _ _ w =>
  { out := "saved to chart.png\n".data, err := [], exn := none, tb := [],
    w := { w with files := (w.cwd ++ "/chart.png".data) :: w.files } }

/-- C8, evaluated at the claim's own scenario: the code creates
`chart.png` in the scratch directory and prints `saved to chart.png`,
yet running `execute_python_code` followed by `_extract_image_paths` on
the execution result yields the EMPTY artifact list, not a single path
ending in `chart.png`: the cleanup restored the working directory before
the scan, so the relative mention resolves against the original working
directory (where no such file exists) and the scratch directory is never
scanned. -/
theorem extract_after_execute_empty :
    ((execute semChart "viz".data none w0demo).2).files =
      [tempDir w0demo ++ "/chart.png".data] ∧
    (execute semChart "viz".data none w0demo).1 =
      "saved to chart.png\n".data ∧
    extractImagePaths (execute semChart "viz".data none w0demo).1
      ((execute semChart "viz".data none w0demo).2).files
      ((execute semChart "viz".data none w0demo).2).cwd
      (fun _ => 0) 0 = [] := by
  refine ⟨?_, ?_, ?_⟩ <;> decide
